import Mathlib

/-!
Verification of the network utility functions in `libvirt/utils_net.go`
(`randomMACAddress`, `randomPort`, `getNetMaskWithMax16Bits`, `networkRange`)
against the natural-language specification.

IP addresses and masks are modelled as lists of bytes (`List Nat`, each
element intended `< 256`, matching Go's `net.IP` / `net.IPMask` byte slices).
Go's `nil` slice result is modelled as the empty list where the distinction
is irrelevant, and as `Option` where the code branches on `nil`.
A Go runtime panic (index out of range) is modelled as `Option.none`.
-/

set_option maxRecDepth 100000

namespace UtilsNet

/-- Byte-level complement, Go's `^x` on a `byte`: xor with `0xff`. -/
def bnot8 (x : Nat) : Nat := 255 ^^^ x

/-- The Go loop `for v&0x80 != 0 { n++; v <<= 1 }` inside
`net.simpleMaskLength`, counting leading one bits of a byte.  The shift is
a byte shift, so the value is reduced mod 256 at each step.  The loop runs
at most 8 times on a byte, hence fuel 8 at the call site.
Returns (number of iterations, final value of `v`). -/
def shiftOnes : Nat → Nat → Nat × Nat
  | 0, v => (0, v)
  | fuel + 1, v =>
    if v &&& 128 ≠ 0 then
      let r := shiftOnes fuel ((v <<< 1) % 256)
      (r.1 + 1, r.2)
    else (0, v)

/-- Go's `net.simpleMaskLength`: the prefix length of a contiguous mask,
`none` standing for Go's `-1` (non-contiguous mask). -/
def simpleMaskLength : List Nat → Option Nat
  | [] => some 0
  | v :: rest =>
    if v = 255 then (simpleMaskLength rest).map (8 + ·)
    else
      let r := shiftOnes 8 v
      if r.2 ≠ 0 then none
      else if rest.all fun b => b = 0 then some r.1
      else none

/-- Go's `net.IPMask.Size`: `(ones, bits)`, and `(0, 0)` when the mask is
not a canonical prefix mask. -/
def maskSize (m : List Nat) : Nat × Nat :=
  match simpleMaskLength m with
  | none => (0, 0)
  | some ones => (ones, m.length * 8)

/-- The byte-filling loop of Go's `net.CIDRMask`: `l` output bytes, `n`
remaining one bits; a partial byte is `^byte(0xff >> n)`. -/
def cidrMaskBytes : Nat → Nat → List Nat
  | _, 0 => []
  | n, l + 1 =>
    if 8 ≤ n then 255 :: cidrMaskBytes (n - 8) l
    else bnot8 (255 >>> n) :: cidrMaskBytes 0 l

/-- Go's `net.CIDRMask ones bits` (Nat arguments, so the `ones < 0` check
is vacuous); `[]` stands for Go's `nil` result. -/
def cidrMask (ones bits : Nat) : List Nat :=
  if bits ≠ 32 ∧ bits ≠ 128 then []
  else if bits < ones then []
  else cidrMaskBytes ones (bits / 8)

/-- `getNetMaskWithMax16Bits` from `utils_net.go`: cap a mask so that at
most 16 host bits remain. -/
def getNetMaskWithMax16Bits (m : List Nat) : List Nat :=
  if 16 < (maskSize m).2 - (maskSize m).1 then
    if (maskSize m).2 = 128 then cidrMask (128 - 16) 128
    else cidrMask (32 - 16) 32
  else m

/-- The IPv4-in-IPv6 marker bytes, Go's `net.v4InV6Prefix`. -/
def v4InV6 : List Nat := [0, 0, 0, 0, 0, 0, 0, 0, 0, 0, 255, 255]

/-- Go's `net.IP.To4`: `some` 4-byte form, or `none` for Go's `nil`. -/
def ipTo4 (ip : List Nat) : Option (List Nat) :=
  if ip.length = 4 then some ip
  else if ip.length = 16 ∧ ip.take 12 = v4InV6 then some (ip.drop 12)
  else none

/-- Go's `net.IP.To16`: `some` 16-byte form, or `none` for Go's `nil`. -/
def ipTo16 (ip : List Nat) : Option (List Nat) :=
  if ip.length = 4 then some (v4InV6 ++ ip)
  else if ip.length = 16 then some ip
  else none

/-- Go's `net.IP.Mask`: byte-wise AND after the 4/16-byte adaptations;
`[]` stands for Go's `nil` result on a length mismatch. -/
def goMask (ip mask : List Nat) : List Nat :=
  let mask' :=
    if mask.length = 16 ∧ ip.length = 4 ∧ ((mask.take 12).all fun b => b = 255)
    then mask.drop 12 else mask
  let ip' :=
    if mask'.length = 4 ∧ ip.length = 16 ∧ ip.take 12 = v4InV6
    then ip.drop 12 else ip
  if ip'.length = mask'.length then List.zipWith (· &&& ·) ip' mask' else []

/-- The last-address loop of `networkRange`:
`lastIP[i] = netIP[i] | ^intMask[i]` for `i < len(lastIP)`; `none` models
the Go panic when an index falls outside `netIP` or `intMask`. -/
def lastBytes : List Nat → List Nat → Nat → Option (List Nat)
  | _, _, 0 => some []
  | a :: as, m :: ms, n + 1 => (lastBytes as ms n).map ((a ||| bnot8 m) :: ·)
  | _, _, _ + 1 => none

/-- The address as `networkRange` normalizes it: `To4` if possible,
otherwise `To16` (with `[]` for a `nil` `To16` result, i.e. a malformed
address length). -/
def normIP (ip : List Nat) : List Nat :=
  match ipTo4 ip with
  | some ip4 => ip4
  | none => (ipTo16 ip).getD []

/-- `networkRange` from `utils_net.go`.  The branch on `To4` fixes the
width of `lastIP` (4 or 16 zero bytes); `firstIP` is `netIP.Mask(mask)`;
the capped mask drives the last-address loop.  `none` models the panic of
the Go loop on mismatched widths. -/
def networkRange (ip mask : List Nat) : Option (List Nat × List Nat) :=
  let netIP := normIP ip
  let lastLen : Nat := match ipTo4 ip with | some _ => 4 | none => 16
  let firstIP := goMask netIP mask
  let intMask := getNetMaskWithMax16Bits mask
  (lastBytes netIP intMask lastLen).map fun lastIP => (firstIP, lastIP)

/-- `minPort` constant from `randomPort`. -/
def minPort : Nat := 1024

/-- `maxPort` constant from `randomPort`. -/
def maxPort : Nat := 65535

/-- Model of Go's `rand.Intn n`: a uniform draw in `[0, n)`, represented
as an arbitrary natural `r` from the generator reduced mod `n`. -/
def goIntn (n r : Nat) : Nat := r % n

/-- `randomPort` from `utils_net.go`, as a function of the random draw
`r`: `rand.Intn(maxPort-minPort) + minPort`.  The Go function returns a
plain `int` — there is no error outcome, which this total function
reflects. -/
def randomPort (r : Nat) : Nat := goIntn (maxPort - minPort) r + minPort

/-- The first-byte synthesis of `randomMACAddress`:
`buf[0] = (buf[0]|2) & 0xfe; buf[0] |= 2; if buf[0] == 0xfe { buf[0] = 0xee }`. -/
def macFirstByte (b0 : Nat) : Nat :=
  let v := ((b0 ||| 2) &&& 0xfe) ||| 2
  if v = 0xfe then 0xee else v

/-- A lowercase hex digit character, as produced by Go's `%x`. -/
def hexDigitChar (n : Nat) : Char :=
  if n < 10 then Char.ofNat (48 + n) else Char.ofNat (87 + n)

/-- Go's `%02x` on a byte: exactly two lowercase hex digits. -/
def fmt02x (b : Nat) : List Char :=
  [hexDigitChar (b / 16 % 16), hexDigitChar (b % 16)]

/-- `randomMACAddress` from `utils_net.go` as a function of the three
random bytes drawn by `rand.Read`: the formatted string
`52:54:00:%02x:%02x:%02x` of the adjusted first byte and the two raw
bytes, given as its character list. -/
def randomMACAddress (b0 b1 b2 : Nat) : List Char :=
  ['5', '2', ':', '5', '4', ':', '0', '0', ':'] ++
    fmt02x (macFirstByte b0) ++ [':'] ++ fmt02x b1 ++ [':'] ++ fmt02x b2

/-- Decidable check for the character class `[0-9a-f]`. -/
def isLowerHexDigit (c : Char) : Bool :=
  (48 ≤ c.toNat && c.toNat ≤ 57) || (97 ≤ c.toNat && c.toNat ≤ 102)

/-- Decidable matcher for `^52:54:00:[0-9a-f]{2}:[0-9a-f]{2}:[0-9a-f]{2}$`. -/
def macMatches : List Char → Bool
  | [p0, p1, p2, p3, p4, p5, p6, p7, p8,
     a1, a2, s1, b1, b2, s2, c1, c2] =>
    (p0 == '5') && (p1 == '2') && (p2 == ':') && (p3 == '5') && (p4 == '4') &&
      (p5 == ':') && (p6 == '0') && (p7 == '0') && (p8 == ':') &&
      (s1 == ':') && (s2 == ':') &&
      isLowerHexDigit a1 && isLowerHexDigit a2 && isLowerHexDigit b1 &&
      isLowerHexDigit b2 && isLowerHexDigit c1 && isLowerHexDigit c2
  | _ => false

/-- A valid `Network` input to `networkRange`: an IPv4 address (4-byte, or
16-byte IPv4-mapped) with a 4-byte mask, or a genuine IPv6 address with a
16-byte mask; all entries are bytes. -/
def validNetwork (ip mask : List Nat) : Prop :=
  (∀ b ∈ ip, b < 256) ∧ (∀ b ∈ mask, b < 256) ∧
    ((ipTo4 ip).isSome = true ∧ mask.length = 4 ∨
      ipTo4 ip = none ∧ ip.length = 16 ∧ mask.length = 16)

instance (ip mask : List Nat) : Decidable (validNetwork ip mask) := by
  unfold validNetwork
  infer_instance

/-- The canonical byte width of the family `networkRange` infers for an
address: 4 when `To4` succeeds, else 16. -/
def ipWidth (ip : List Nat) : Nat :=
  match ipTo4 ip with | some _ => 4 | none => 16

/-- Unsigned value of a byte string (base-256, big-endian); on equal-length
strings, comparing values is exactly unsigned byte-wise lexicographic
comparison. -/
def ipVal (l : List Nat) : Nat := l.foldl (fun acc b => acc * 256 + b) 0

/-- A contiguous (canonical) prefix mask: a run of 1-bits followed by
0-bits, stated independently of `simpleMaskLength`: any number of `0xff`
bytes, then one partial-prefix byte, then zero bytes. -/
def isPrefixMask : List Nat → Bool
  | [] => true
  | b :: rest =>
    if b = 255 then isPrefixMask rest
    else (b ∈ [0, 128, 192, 224, 240, 248, 252, 254]) && rest.all fun x => x = 0

/-- Shared randomness model for the seeding claims: a `randomPort` call
first reseeds the generator from the timestamp (`rand.Seed(time.Now().UnixNano())`),
discarding the incoming generator state `s`, then draws. -/
def randomPortCall {R : Type} (seed : Int → R) (next : R → Nat × R)
    (s : R) (now : Int) : Nat × R :=
  let g := seed now
  let r := next g
  (goIntn (maxPort - minPort) r.1 + minPort, r.2)

/-- Shared randomness model for `randomMACAddress`: reseed from the
timestamp, discard the incoming state `s`, draw 3 bytes, format. -/
def randomMACCall {R : Type} (seed : Int → R)
    (read3 : R → (Nat × Nat × Nat) × R) (s : R) (now : Int) :
    List Char × R :=
  let g := seed now
  let r := read3 g
  (randomMACAddress r.1.1 r.1.2.1 r.1.2.2, r.2)

/-! ### Helper lemmas -/

theorem cidrMaskBytes_length (l n : Nat) : (cidrMaskBytes n l).length = l := by
  induction l generalizing n with
  | zero => rfl
  | succ l ih =>
    unfold cidrMaskBytes
    split <;> simp [ih]

theorem ipTo4_length {ip l : List Nat} (h : ipTo4 ip = some l) : l.length = 4 := by
  unfold ipTo4 at h
  by_cases h4 : ip.length = 4
  · rw [if_pos h4] at h
    injection h with h'
    subst h'
    exact h4
  · rw [if_neg h4] at h
    by_cases h16 : ip.length = 16 ∧ ip.take 12 = v4InV6
    · rw [if_pos h16] at h
      injection h with h'
      subst h'
      simp [h16.1]
    · rw [if_neg h16] at h
      cases h

theorem normIP_v4 {ip ip4 : List Nat} (h : ipTo4 ip = some ip4) : normIP ip = ip4 := by
  unfold normIP
  rw [h]

theorem normIP_v6 {ip : List Nat} (h4 : ipTo4 ip = none) (h16 : ip.length = 16) :
    normIP ip = ip := by
  unfold normIP
  rw [h4]
  unfold ipTo16
  rw [if_neg (by omega), if_pos h16]
  rfl

theorem cap_cases (m : List Nat) :
    getNetMaskWithMax16Bits m = m ∨
    (getNetMaskWithMax16Bits m = cidrMask 112 128 ∧ (maskSize m).2 = 128) ∨
    (getNetMaskWithMax16Bits m = cidrMask 16 32 ∧ (maskSize m).2 ≠ 128 ∧
      16 < (maskSize m).2 - (maskSize m).1) := by
  unfold getNetMaskWithMax16Bits
  split
  · split
    · right
      left
      exact ⟨rfl, by assumption⟩
    · right
      right
      exact ⟨rfl, by assumption, by assumption⟩
  · left
    rfl

theorem maskSize_snd (m : List Nat) : (maskSize m).2 = 0 ∨ (maskSize m).2 = m.length * 8 := by
  unfold maskSize
  cases simpleMaskLength m with
  | none => left; rfl
  | some n => right; rfl

theorem cap_length_four {m : List Nat} (h : m.length = 4) :
    (getNetMaskWithMax16Bits m).length = 4 := by
  rcases cap_cases m with hc | ⟨hc, hb⟩ | ⟨hc, _, _⟩
  · rw [hc, h]
  · rcases maskSize_snd m with hz | hz
    · rw [hz] at hb
      omega
    · rw [hz, h] at hb
      omega
  · rw [hc]
    decide

theorem cap_length_sixteen {m : List Nat} (h : m.length = 16) :
    (getNetMaskWithMax16Bits m).length = 16 := by
  rcases cap_cases m with hc | ⟨hc, _⟩ | ⟨hc, hb, hgt⟩
  · rw [hc, h]
  · rw [hc]
    decide
  · rcases maskSize_snd m with hz | hz
    · rw [hz] at hgt
      omega
    · rw [hz, h] at hb
      omega

theorem lastBytes_eq_zipWith :
    ∀ (n : Nat) (a b : List Nat), a.length = n → b.length = n →
      lastBytes a b n = some (List.zipWith (fun x m => x ||| bnot8 m) a b) := by
  intro n
  induction n with
  | zero =>
    intro a b ha hb
    rw [List.length_eq_zero] at ha hb
    subst ha
    subst hb
    rfl
  | succ n ih =>
    intro a b ha hb
    match a, b with
    | x :: as, y :: bs =>
      simp only [List.length_cons, Nat.succ.injEq] at ha hb
      simp only [lastBytes]
      rw [ih as bs ha hb]
      rfl

theorem lastBytes_none :
    ∀ (n : Nat) (a b : List Nat), b.length < n → lastBytes a b n = none := by
  intro n
  induction n with
  | zero =>
    intro a b hb
    omega
  | succ n ih =>
    intro a b hb
    match a, b with
    | [], _ => rfl
    | _ :: _, [] => rfl
    | x :: as, y :: bs =>
      simp only [List.length_cons] at hb
      simp only [lastBytes]
      rw [ih as bs (by omega)]
      rfl

theorem goMask_four {ip4 mask : List Nat} (h1 : ip4.length = 4) (h2 : mask.length = 4) :
    goMask ip4 mask = List.zipWith (· &&& ·) ip4 mask := by
  unfold goMask
  simp [h1, h2]

theorem goMask_sixteen {ip mask : List Nat} (h1 : ip.length = 16) (h2 : mask.length = 16) :
    goMask ip mask = List.zipWith (· &&& ·) ip mask := by
  unfold goMask
  simp [h1, h2]

/-- On a valid Network, `networkRange` succeeds and returns exactly the
byte-wise AND with the uncapped mask as the first address, and the
byte-wise OR of the raw normalized address with the capped mask's
complement as the last address. -/
theorem networkRange_eq (ip mask : List Nat) (h : validNetwork ip mask) :
    networkRange ip mask =
      some (List.zipWith (· &&& ·) (normIP ip) mask,
        List.zipWith (fun x m => x ||| bnot8 m) (normIP ip)
          (getNetMaskWithMax16Bits mask)) := by
  rcases h with ⟨-, -, ⟨h4, hm⟩ | ⟨h4, hip, hm⟩⟩
  · rw [Option.isSome_iff_exists] at h4
    obtain ⟨ip4, hx⟩ := h4
    have hl4 : ip4.length = 4 := ipTo4_length hx
    have hnorm : normIP ip = ip4 := normIP_v4 hx
    simp only [networkRange, hx, hnorm]
    rw [lastBytes_eq_zipWith 4 ip4 (getNetMaskWithMax16Bits mask) hl4
      (cap_length_four hm)]
    rw [goMask_four hl4 hm]
    rfl
  · have hnorm : normIP ip = ip := normIP_v6 h4 hip
    simp only [networkRange, h4, hnorm]
    rw [lastBytes_eq_zipWith 16 ip (getNetMaskWithMax16Bits mask) hip
      (cap_length_sixteen hm)]
    rw [goMask_sixteen hip hm]
    rfl

theorem ipVal_le_of_forall2 {l1 l2 : List Nat} (h : List.Forall₂ (· ≤ ·) l1 l2) :
    ipVal l1 ≤ ipVal l2 := by
  have aux : ∀ a1 a2 : Nat, a1 ≤ a2 →
      l1.foldl (fun acc b => acc * 256 + b) a1 ≤ l2.foldl (fun acc b => acc * 256 + b) a2 := by
    induction h with
    | nil =>
      intro a1 a2 ha
      exact ha
    | cons hxy _ ih =>
      intro a1 a2 ha
      exact ih _ _ (Nat.add_le_add (Nat.mul_le_mul_right 256 ha) hxy)
  exact aux 0 0 (Nat.le_refl 0)

theorem zipWith_and_le_or {a m1 m2 : List Nat} (h1 : m1.length = a.length)
    (h2 : m2.length = a.length) :
    List.Forall₂ (· ≤ ·) (List.zipWith (· &&& ·) a m1)
      (List.zipWith (fun x m => x ||| bnot8 m) a m2) := by
  induction a generalizing m1 m2 with
  | nil =>
    simp only [List.zipWith_nil_left]
    exact List.Forall₂.nil
  | cons x xs ih =>
    match m1, m2 with
    | y :: ys, z :: zs =>
      simp only [List.length_cons, List.length_cons, Nat.succ.injEq] at h1 h2
      refine List.Forall₂.cons ?_ (ih h1 h2)
      exact Nat.le_trans Nat.and_le_left
        (Nat.le_of_testBit fun i hi => by rw [Nat.testBit_or, hi, Bool.true_or])

set_option maxRecDepth 40000 in
theorem shiftOnes_byte_ok :
    ∀ v : Nat, v < 256 → v ≠ 255 → (shiftOnes 8 v).2 = 0 →
      v ∈ [0, 128, 192, 224, 240, 248, 252, 254] := by decide

theorem simpleMaskLength_some_prefix (m : List Nat) (hb : ∀ b ∈ m, b < 256)
    (h : (simpleMaskLength m).isSome = true) : isPrefixMask m = true := by
  induction m with
  | nil => rfl
  | cons v rest ih =>
    by_cases hv : v = 255
    · subst hv
      rw [show simpleMaskLength (255 :: rest) = (simpleMaskLength rest).map (8 + ·) from rfl,
        Option.isSome_map'] at h
      rw [show isPrefixMask (255 :: rest) = isPrefixMask rest from rfl]
      exact ih (fun b hbm => hb b (List.mem_cons_of_mem _ hbm)) h
    · simp only [simpleMaskLength, if_neg hv] at h
      split at h
      · simp at h
      next hs =>
        split at h
        next hall =>
          simp only [isPrefixMask, if_neg hv, Bool.and_eq_true]
          refine ⟨decide_eq_true ?_, hall⟩
          exact shiftOnes_byte_ok v (hb v (List.mem_cons_self v rest)) hv
            (by omega)
        next => simp at h

theorem not_prefix_simpleMaskLength_none (m : List Nat) (hb : ∀ b ∈ m, b < 256)
    (h : isPrefixMask m = false) : simpleMaskLength m = none := by
  cases hsm : simpleMaskLength m with
  | none => rfl
  | some n =>
    have hp := simpleMaskLength_some_prefix m hb (by rw [hsm]; rfl)
    rw [hp] at h
    cases h

theorem hexDigitChar_isHex : ∀ n : Nat, n < 16 → isLowerHexDigit (hexDigitChar n) = true := by
  decide

theorem macMatches_mac (x y z : Nat) : macMatches (randomMACAddress x y z) = true := by
  have h1 := hexDigitChar_isHex (macFirstByte x / 16 % 16) (Nat.mod_lt _ (by omega))
  have h2 := hexDigitChar_isHex (macFirstByte x % 16) (Nat.mod_lt _ (by omega))
  have h3 := hexDigitChar_isHex (y / 16 % 16) (Nat.mod_lt _ (by omega))
  have h4 := hexDigitChar_isHex (y % 16) (Nat.mod_lt _ (by omega))
  have h5 := hexDigitChar_isHex (z / 16 % 16) (Nat.mod_lt _ (by omega))
  have h6 := hexDigitChar_isHex (z % 16) (Nat.mod_lt _ (by omega))
  simp only [randomMACAddress, fmt02x, List.cons_append, List.nil_append, macMatches]
  simp [h1, h2, h3, h4, h5, h6]

/-! ### Claim theorems -/

/-- C1: for every contiguous prefix mask (32-bit IPv4 or 128-bit IPv6),
`getNetMaskWithMax16Bits` returns the mask unchanged when it has at most
16 host bits, and otherwise returns the /16 (IPv4) resp. /112 (IPv6) mask
of the same total width, which has exactly 16 host bits. -/
theorem capMask_caps_to_16_host_bits (ones bits : Nat)
    (hb : bits = 32 ∨ bits = 128) (ho : ones ≤ bits) :
    (bits - ones ≤ 16 →
      getNetMaskWithMax16Bits (cidrMask ones bits) = cidrMask ones bits) ∧
    (16 < bits - ones →
      getNetMaskWithMax16Bits (cidrMask ones bits) = cidrMask (bits - 16) bits ∧
      (maskSize (getNetMaskWithMax16Bits (cidrMask ones bits))).2 -
          (maskSize (getNetMaskWithMax16Bits (cidrMask ones bits))).1 = 16) := by
  rcases hb with h | h <;> subst h <;> revert ho <;> revert ones <;> decide

theorem capMask_caps_to_16_host_bits_witness :
    ((32 : Nat) - 20 ≤ 16 →
      getNetMaskWithMax16Bits (cidrMask 20 32) = cidrMask 20 32) ∧
    (16 < (32 : Nat) - 8 →
      getNetMaskWithMax16Bits (cidrMask 8 32) = cidrMask (32 - 16) 32 ∧
      (maskSize (getNetMaskWithMax16Bits (cidrMask 8 32))).2 -
          (maskSize (getNetMaskWithMax16Bits (cidrMask 8 32))).1 = 16) :=
  ⟨(capMask_caps_to_16_host_bits 20 32 (Or.inl rfl) (by decide)).1,
   (capMask_caps_to_16_host_bits 8 32 (Or.inl rfl) (by decide)).2⟩

/-- C5: `getNetMaskWithMax16Bits` is idempotent on every byte-list mask. -/
theorem capMask_idempotent (m : List Nat) :
    getNetMaskWithMax16Bits (getNetMaskWithMax16Bits m) = getNetMaskWithMax16Bits m := by
  rcases cap_cases m with hc | ⟨hc, -⟩ | ⟨hc, -, -⟩
  · rw [hc]
    exact hc
  · rw [hc]
    decide
  · rw [hc]
    decide

/-- C10: a mask that is not a contiguous run of 1-bits followed by 0-bits
is reported by `Size` as `(0, 0)`, so `getNetMaskWithMax16Bits` returns it
unchanged no matter how many host bits it leaves. -/
theorem capMask_non_contiguous_unchanged (m : List Nat) (hb : ∀ b ∈ m, b < 256)
    (h : isPrefixMask m = false) :
    maskSize m = (0, 0) ∧ getNetMaskWithMax16Bits m = m := by
  have hs : simpleMaskLength m = none := not_prefix_simpleMaskLength_none m hb h
  have hms : maskSize m = (0, 0) := by
    unfold maskSize
    rw [hs]
  refine ⟨hms, ?_⟩
  unfold getNetMaskWithMax16Bits
  rw [hms]
  simp

theorem capMask_non_contiguous_unchanged_witness :
    maskSize [0, 255, 0, 0] = (0, 0) ∧
    getNetMaskWithMax16Bits [0, 255, 0, 0] = [0, 255, 0, 0] :=
  capMask_non_contiguous_unchanged [0, 255, 0, 0] (by decide) (by decide)

/-- C3: on every valid Network, the first address returned by
`networkRange` is the byte-wise AND of the normalized address with the
original, uncapped mask. -/
theorem firstAddress_eq_address_and_mask (ip mask : List Nat)
    (h : validNetwork ip mask) :
    (networkRange ip mask).map Prod.fst =
      some (List.zipWith (· &&& ·) (normIP ip) mask) := by
  rw [networkRange_eq ip mask h]
  rfl

theorem firstAddress_eq_address_and_mask_witness :
    (networkRange [10, 0, 0, 0] [255, 0, 0, 0]).map Prod.fst =
      some (List.zipWith (· &&& ·) (normIP [10, 0, 0, 0]) [255, 0, 0, 0]) :=
  firstAddress_eq_address_and_mask [10, 0, 0, 0] [255, 0, 0, 0] (by decide)

/-- C2 counterexample: for the valid network 10.1.0.0/8 the last address
computed by `networkRange` is 10.1.255.255, which differs from the value
predicted by the claim (base = masked network address 10.0.0.0, giving
10.0.255.255): the code uses the raw normalized address as the base. -/
theorem lastAddress_masked_base_counterexample :
    validNetwork [10, 1, 0, 0] [255, 0, 0, 0] ∧
    networkRange [10, 1, 0, 0] [255, 0, 0, 0] =
      some ([10, 0, 0, 0], [10, 1, 255, 255]) ∧
    List.zipWith (fun x m => x ||| bnot8 m)
      (List.zipWith (· &&& ·) (normIP [10, 1, 0, 0]) [255, 0, 0, 0])
      (getNetMaskWithMax16Bits [255, 0, 0, 0]) = [10, 0, 255, 255] ∧
    ([10, 1, 255, 255] : List Nat) ≠ [10, 0, 255, 255] := by
  refine ⟨by decide, by decide, by decide, by decide⟩

/-- C2 (amended): on every valid Network, the last address satisfies
`lastAddress[i] = normalizedAddress[i] OR NOT cappedMask[i]` — the base of
the OR is the raw normalized input address, not the masked network
address. -/
theorem lastAddress_raw_base (ip mask : List Nat) (h : validNetwork ip mask) :
    (networkRange ip mask).map Prod.snd =
      some (List.zipWith (fun x m => x ||| bnot8 m) (normIP ip)
        (getNetMaskWithMax16Bits mask)) := by
  rw [networkRange_eq ip mask h]
  rfl

theorem lastAddress_raw_base_witness :
    (networkRange [10, 1, 0, 0] [255, 0, 0, 0]).map Prod.snd =
      some (List.zipWith (fun x m => x ||| bnot8 m) (normIP [10, 1, 0, 0])
        (getNetMaskWithMax16Bits [255, 0, 0, 0])) :=
  lastAddress_raw_base [10, 1, 0, 0] [255, 0, 0, 0] (by decide)

theorem lastBytes_some_of_le :
    ∀ (n : Nat) (a b : List Nat), n ≤ a.length → n ≤ b.length →
      ∃ l, lastBytes a b n = some l := by
  intro n
  induction n with
  | zero =>
    intro a b _ _
    exact ⟨[], by simp [lastBytes]⟩
  | succ n ih =>
    intro a b ha hb
    match a, b with
    | [], _ => simp at ha
    | _ :: _, [] => simp at hb
    | x :: as, y :: bs =>
      obtain ⟨l, hl⟩ := ih as bs (by simpa using ha) (by simpa using hb)
      refine ⟨(x ||| bnot8 y) :: l, ?_⟩
      simp only [lastBytes, hl]
      rfl

/-- C4: on every valid Network, `networkRange` succeeds, the first address
is less than or equal to the last address in unsigned byte-wise
(lexicographic) ordering, and both addresses have the input's family and
its canonical byte width (4 for IPv4, 16 for IPv6). -/
theorem range_first_le_last (ip mask : List Nat) (h : validNetwork ip mask) :
    ∃ first last,
      networkRange ip mask = some (first, last) ∧
      ipVal first ≤ ipVal last ∧
      first.length = ipWidth ip ∧ last.length = ipWidth ip := by
  have key : ∀ n, (normIP ip).length = n → mask.length = n →
      (getNetMaskWithMax16Bits mask).length = n → ipWidth ip = n →
      ∃ first last,
        networkRange ip mask = some (first, last) ∧
        ipVal first ≤ ipVal last ∧
        first.length = ipWidth ip ∧ last.length = ipWidth ip := by
    intro n hn hm hcap hw
    refine ⟨_, _, networkRange_eq ip mask h, ?_, ?_, ?_⟩
    · exact ipVal_le_of_forall2 (zipWith_and_le_or (by omega) (by omega))
    · rw [List.length_zipWith, hn, hm, hw]
      omega
    · rw [List.length_zipWith, hn, hcap, hw]
      omega
  rcases h.2.2 with ⟨h4, hm⟩ | ⟨h4, hip, hm⟩
  · rw [Option.isSome_iff_exists] at h4
    obtain ⟨ip4, hx⟩ := h4
    exact key 4 (by rw [normIP_v4 hx]; exact ipTo4_length hx) hm
      (cap_length_four hm) (by unfold ipWidth; rw [hx])
  · exact key 16 (by rw [normIP_v6 h4 hip]; exact hip) hm
      (cap_length_sixteen hm) (by unfold ipWidth; rw [h4])

theorem range_first_le_last_witness :
    ∃ first last,
      networkRange [10, 0, 0, 0] [255, 0, 0, 0] = some (first, last) ∧
      ipVal first ≤ ipVal last ∧
      first.length = ipWidth [10, 0, 0, 0] ∧
      last.length = ipWidth [10, 0, 0, 0] :=
  range_first_le_last [10, 0, 0, 0] [255, 0, 0, 0] (by decide)

/-- C6: for every draw of the 3 random bytes, the generated MAC string
matches `^52:54:00:[0-9a-f]{2}:[0-9a-f]{2}:[0-9a-f]{2}$`, and the first
synthesized byte (fourth octet) is never `0xfe`, has unicast bit (bit 0)
clear and locally-administered bit (bit 1) set — also after the
`0xfe → 0xee` substitution. -/
theorem randomMAC_format_and_bits (b0 b1 b2 : Nat)
    (h0 : b0 < 256) (h1 : b1 < 256) (h2 : b2 < 256) :
    macMatches (randomMACAddress b0 b1 b2) = true ∧
    macFirstByte b0 ≠ 0xfe ∧
    Nat.testBit (macFirstByte b0) 0 = false ∧
    Nat.testBit (macFirstByte b0) 1 = true := by
  refine ⟨macMatches_mac _ _ _, ?_⟩
  clear h1 h2
  revert h0
  revert b0
  decide

theorem randomMAC_format_and_bits_witness :
    macMatches (randomMACAddress 0xfc 0xab 0x09) = true ∧
    macFirstByte 0xfc ≠ 0xfe ∧
    Nat.testBit (macFirstByte 0xfc) 0 = false ∧
    Nat.testBit (macFirstByte 0xfc) 1 = true :=
  randomMAC_format_and_bits 0xfc 0xab 0x09 (by decide) (by decide) (by decide)

/-- C7: every `randomPort` result lies in the half-open interval
[1024, 65535) — 65535 itself is never returned — and `randomPort` is a
total function of the draw: it has no error outcome. -/
theorem randomPort_range (r : Nat) :
    minPort ≤ randomPort r ∧ randomPort r < maxPort := by
  unfold randomPort goIntn minPort maxPort
  omega

/-- C8 counterexample: `networkRange` does not validate family/width.  A
4-byte IPv4 address with a 16-byte /16 IPv6 mask yields a computed result
(first address is Go's nil IP, modelled `[]`) instead of an error, and a
16-byte IPv6 address with a 4-byte mask makes the loop panic on an
out-of-range index (modelled `none`) — neither path reports an
InvalidNetworkError. -/
theorem networkRange_mismatch_counterexample :
    networkRange [10, 0, 0, 0]
        [255, 255, 0, 0, 0, 0, 0, 0, 0, 0, 0, 0, 0, 0, 0, 0] =
      some ([], [10, 0, 0, 0]) ∧
    networkRange [32, 1, 13, 184, 0, 0, 0, 0, 0, 0, 0, 0, 0, 0, 0, 0]
        [255, 0, 0, 0] = none := by
  refine ⟨by decide, by decide⟩

/-- C8 (amended): `networkRange` performs no family/width validation and
has no error outcome.  On an IPv4-family address with a 16-byte mask that
is not an IPv4-in-IPv6 (all-0xff-prefixed) mask, it silently computes a
range whose first address is Go's nil IP; on a 16-byte IPv6 address with a
4-byte mask it panics with an index-out-of-range instead of failing with
an InvalidNetworkError. -/
theorem networkRange_no_validation (ip mask : List Nat) :
    ((ipTo4 ip).isSome = true → mask.length = 16 →
      ((mask.take 12).all fun b => b = 255) = false →
      ∃ last, networkRange ip mask = some ([], last)) ∧
    (ipTo4 ip = none → ip.length = 16 → mask.length = 4 →
      networkRange ip mask = none) := by
  constructor
  · intro h4 hm hff
    rw [Option.isSome_iff_exists] at h4
    obtain ⟨ip4, hx⟩ := h4
    have hl4 : ip4.length = 4 := ipTo4_length hx
    have hfirst : goMask ip4 mask = [] := by
      unfold goMask
      simp [hm, hl4, hff]
    have hcap : (getNetMaskWithMax16Bits mask).length = 16 :=
      cap_length_sixteen hm
    obtain ⟨last, hlast⟩ := lastBytes_some_of_le 4 ip4
      (getNetMaskWithMax16Bits mask) (by omega) (by omega)
    refine ⟨last, ?_⟩
    simp only [networkRange, hx, normIP_v4 hx, hlast, hfirst]
    rfl
  · intro h4 hip hm
    have hcap : (getNetMaskWithMax16Bits mask).length = 4 := cap_length_four hm
    simp only [networkRange, h4, normIP_v6 h4 hip]
    rw [lastBytes_none 16 ip (getNetMaskWithMax16Bits mask) (by omega)]
    rfl

theorem networkRange_no_validation_witness :
    (∃ last, networkRange [10, 0, 0, 0]
        [255, 255, 0, 0, 0, 0, 0, 0, 0, 0, 0, 0, 0, 0, 0, 0] =
      some ([], last)) ∧
    networkRange [32, 1, 13, 184, 0, 0, 0, 0, 0, 0, 0, 0, 0, 0, 0, 0]
        [255, 0, 0, 0] = none :=
  ⟨(networkRange_no_validation [10, 0, 0, 0]
      [255, 255, 0, 0, 0, 0, 0, 0, 0, 0, 0, 0, 0, 0, 0, 0]).1
      (by decide) (by decide) (by decide),
   (networkRange_no_validation [32, 1, 13, 184, 0, 0, 0, 0, 0, 0, 0, 0, 0, 0, 0, 0]
      [255, 0, 0, 0]).2 (by decide) (by decide) (by decide)⟩

/-- C9: because both calls reseed the shared generator from the observed
wall-clock timestamp before drawing, their results are deterministic
functions of that timestamp: the incoming generator state is discarded, so
any two calls observing the same `UnixNano` value — in either order,
including back-to-back calls threading the generator state — return
identical values. -/
theorem seeded_calls_timestamp_deterministic {R : Type} (seed : Int → R)
    (next : R → Nat × R) (read3 : R → (Nat × Nat × Nat) × R)
    (s1 s2 : R) (t : Int) :
    (randomPortCall seed next s1 t).1 = (randomPortCall seed next s2 t).1 ∧
    (randomMACCall seed read3 s1 t).1 = (randomMACCall seed read3 s2 t).1 ∧
    (randomPortCall seed next (randomPortCall seed next s1 t).2 t).1 =
      (randomPortCall seed next s1 t).1 ∧
    (randomMACCall seed read3 (randomMACCall seed read3 s1 t).2 t).1 =
      (randomMACCall seed read3 s1 t).1 :=
  ⟨rfl, rfl, rfl, rfl⟩

end UtilsNet
